import Mathlib

/-!
# Verification of the DNS covert-channel encoding engine

A shallow embedding of the channel encode/decode strategies of the
Open-Network-Security "Convert Communication Lab" repository, together with
proofs of the round-trip and behavioural properties stated in its
specification.

Python byte strings are modelled as `List Nat` (each element `< 256`, stated
as a hypothesis where it matters), Python strings as `List Char`, and a
Python function that can raise an exception returns `Option` (`none` = the
call raises).  Each definition carries a comment naming the Python source it
embeds.
-/

set_option maxRecDepth 4000

namespace CovertDNS

/-! ## Bit-level primitives

Several channels share the same inline bit manipulations:
`format(b, '08b')` renders a byte most-significant-bit first, `int(s, 2)`
folds binary digits most-significant first, and decodes walk the bit string
in groups of 8 keeping only full groups. -/

/-- `int(chunk, 2)`: fold a most-significant-bit-first bit list to a `Nat`. -/
def bitsToNat (l : List Bool) : Nat :=
  l.foldl (fun a b => 2 * a + b.toNat) 0

/-- Big-endian bit representation of `n`, exactly `w` bits wide. -/
def natToBits (w n : Nat) : List Bool :=
  (List.range w).map (fun i => n.testBit (w - 1 - i))

/-- Fuel-driven floor base-2 logarithm (`int(math.log2(n))` for the sizes
the channels use); structural recursion keeps it kernel-reducible, and
`log2Floor_eq` identifies it with `Nat.log2`. -/
def log2Go : Nat → Nat → Nat
  | 0, _ => 0
  | fuel + 1, n => if n < 2 then 0 else log2Go fuel (n / 2) + 1

/-- `int(math.log2(n))` (exact for the integer arguments that occur). -/
def log2Floor (n : Nat) : Nat := log2Go n n

theorem log2Go_eq (n : Nat) : ∀ fuel, n ≤ fuel → log2Go fuel n = Nat.log2 n := by
  induction n using Nat.strong_induction_on with
  | _ n ih =>
    intro fuel hf
    by_cases h : n < 2
    · have h1 : ∀ g, log2Go g n = 0 := by
        intro g
        cases g with
        | zero => rfl
        | succ g => simp [log2Go, h]
      rw [h1, Nat.log2]
      simp [show ¬ n ≥ 2 by omega]
    · push_neg at h
      obtain ⟨f, rfl⟩ : ∃ f, fuel = f + 1 := ⟨fuel - 1, by omega⟩
      rw [show log2Go (f + 1) n = log2Go f (n / 2) + 1 from by
          simp [log2Go, show ¬ n < 2 by omega]]
      rw [ih (n / 2) (by omega) f (by omega)]
      conv_rhs => rw [Nat.log2]
      simp [show n ≥ 2 from h]

theorem log2Floor_eq (n : Nat) : log2Floor n = Nat.log2 n :=
  log2Go_eq n n le_rfl

/-- Number of binary digits of `n` (`len(format(n, 'b'))`). -/
def binLen (n : Nat) : Nat :=
  if n = 0 then 1 else log2Floor n + 1

/-- Python `format(n, f'0{w}b')`: big-endian binary with *minimum* width `w`
(wider when `n` needs more digits; the format never truncates). -/
def formatBin (w n : Nat) : List Bool :=
  natToBits (max w (binLen n)) n

/-- `''.join(format(byte, '08b') for byte in data)`. -/
def bytesToBits (data : List Nat) : List Bool :=
  data.flatMap (formatBin 8)

/-- Worker for `chunksPos`: `acc` is the current chunk (reversed), `cnt` the
remaining capacity of the current chunk.  Structural recursion on the input
list keeps the definition kernel-reducible. -/
def chunksGo (k : Nat) : List α → List α → Nat → List (List α)
  | acc, [], _ => [acc.reverse]
  | acc, x :: xs, 0 => acc.reverse :: chunksGo k [x] xs k
  | acc, x :: xs, cnt + 1 => chunksGo k (x :: acc) xs cnt

/-- `[xs[i:i+k+1] for i in range(0, len(xs), k+1)]`: split into consecutive
chunks of `k + 1` elements; the final chunk may be shorter.  The width is
written `k + 1` because Python's `range` raises on step `0`; call sites
guard the zero-width case explicitly. -/
def chunksPos (k : Nat) : List α → List (List α)
  | [] => []
  | x :: xs => chunksGo k [x] xs k

/-- The decode-direction byte reassembly shared by the RD-flag, label-count,
q-type and case-toggle channels: walk the bits in groups of 8 and keep
`int(group, 2)` only for full groups (`if len(byte_bits) == 8`). -/
def bitsToBytes (bits : List Bool) : List Nat :=
  (chunksPos 7 bits).filterMap
    (fun g => if g.length = 8 then some (bitsToNat g) else none)

/-- Encode-direction chunking with zero padding of the final chunk
(`chunk = chunk.ljust(w, '0')` for width `w = k + 1`). -/
def chunkPadPos (k : Nat) (bits : List Bool) : List (List Bool) :=
  (chunksPos k bits).map (fun c => c ++ List.replicate (k + 1 - c.length) false)

/-- The per-query integers a bit-field channel derives from a payload:
bits of the payload, chunked at width `k + 1`, last chunk zero-padded,
each chunk read with `int(chunk, 2)`. -/
def chunkValsPos (k : Nat) (data : List Nat) : List Nat :=
  (chunkPadPos k (bytesToBits data)).map bitsToNat

/-! ### Lemmas about the bit primitives -/

theorem bitsToNat_foldl (a : Nat) (l : List Bool) :
    l.foldl (fun a b => 2 * a + b.toNat) a = a * 2 ^ l.length + bitsToNat l := by
  induction l generalizing a with
  | nil => simp [bitsToNat]
  | cons b l ih =>
    simp only [List.foldl_cons, List.length_cons, bitsToNat]
    rw [ih, ih]
    ring

theorem bitsToNat_cons (b : Bool) (l : List Bool) :
    bitsToNat (b :: l) = b.toNat * 2 ^ l.length + bitsToNat l := by
  simpa [bitsToNat] using bitsToNat_foldl b.toNat l

theorem bitsToNat_lt (l : List Bool) : bitsToNat l < 2 ^ l.length := by
  induction l with
  | nil => simp [bitsToNat]
  | cons b l ih =>
    rw [bitsToNat_cons]
    cases b <;> simp only [Bool.toNat_false, Bool.toNat_true, List.length_cons,
      pow_succ] <;> omega

@[simp] theorem natToBits_length (w n : Nat) : (natToBits w n).length = w := by
  simp [natToBits]

theorem natToBits_succ (w n : Nat) :
    natToBits (w + 1) n = n.testBit w :: natToBits w n := by
  simp only [natToBits, List.range_succ_eq_map, List.map_cons, List.map_map]
  refine congrArg₂ List.cons (by simp) ?_
  apply List.map_congr_left
  intro i _
  simp only [Function.comp_apply, Nat.succ_eq_add_one]
  congr 1
  omega

theorem bitsToNat_natToBits (w n : Nat) :
    bitsToNat (natToBits w n) = n % 2 ^ w := by
  induction w with
  | zero => simp [natToBits, bitsToNat, Nat.mod_one]
  | succ w ih =>
    rw [natToBits_succ, bitsToNat_cons, natToBits_length, ih, Nat.toNat_testBit,
      pow_succ, Nat.mod_mul]
    ring

theorem bitsToNat_natToBits_of_lt {w n : Nat} (h : n < 2 ^ w) :
    bitsToNat (natToBits w n) = n := by
  rw [bitsToNat_natToBits, Nat.mod_eq_of_lt h]

theorem natToBits_mod (w n : Nat) :
    natToBits w (n % 2 ^ w) = natToBits w n := by
  apply List.ext_getElem (by simp)
  intro i h₁ h₂
  simp only [natToBits, List.getElem_map, List.getElem_range,
    Nat.testBit_mod_two_pow]
  have : w - 1 - i < w := by simp at h₁; omega
  simp [this]

theorem natToBits_bitsToNat (l : List Bool) :
    natToBits l.length (bitsToNat l) = l := by
  induction l with
  | nil => simp [natToBits]
  | cons b l ih =>
    rw [List.length_cons, natToBits_succ, bitsToNat_cons]
    have hlt := bitsToNat_lt l
    congr 1
    · have hdiv : (b.toNat * 2 ^ l.length + bitsToNat l) / 2 ^ l.length = b.toNat := by
        rw [Nat.mul_comm, Nat.mul_add_div (Nat.pos_pow_of_pos _ (by norm_num)),
          Nat.div_eq_of_lt hlt]
        omega
      rw [Nat.testBit_to_div_mod, hdiv]
      cases b <;> simp
    · have hmod : (b.toNat * 2 ^ l.length + bitsToNat l) % 2 ^ l.length = bitsToNat l := by
        rw [Nat.mul_comm, Nat.mul_add_mod, Nat.mod_eq_of_lt hlt]
      calc natToBits l.length (b.toNat * 2 ^ l.length + bitsToNat l)
          = natToBits l.length ((b.toNat * 2 ^ l.length + bitsToNat l) % 2 ^ l.length) :=
            (natToBits_mod _ _).symm
        _ = l := by rw [hmod, ih]

theorem binLen_le {w n : Nat} (hw : 1 ≤ w) (hn : n < 2 ^ w) : binLen n ≤ w := by
  unfold binLen
  split
  · omega
  · rw [log2Floor_eq]
    have := (Nat.log2_lt (by assumption)).mpr hn
    omega

theorem formatBin_of_lt {w n : Nat} (hw : 1 ≤ w) (hn : n < 2 ^ w) :
    formatBin w n = natToBits w n := by
  unfold formatBin
  rw [Nat.max_eq_left (binLen_le hw hn)]

theorem chunksGo_eq (k : Nat) (xs : List α) : ∀ (acc : List α) (cnt : Nat),
    chunksGo k acc xs cnt = (acc.reverse ++ xs.take cnt) :: chunksPos k (xs.drop cnt) := by
  induction xs with
  | nil => intro acc cnt; simp [chunksGo, chunksPos]
  | cons x xs ih =>
    intro acc cnt
    cases cnt with
    | zero => simp [chunksGo, chunksPos]
    | succ cnt =>
      simp [chunksGo, ih, List.take_succ_cons, List.drop_succ_cons,
        List.append_assoc]

/-- The loop-step view of `chunksPos`: first `k + 1` elements, then the rest. -/
theorem chunksPos_cons_eq (k : Nat) (x : α) (xs : List α) :
    chunksPos k (x :: xs) =
      (x :: xs).take (k + 1) :: chunksPos k ((x :: xs).drop (k + 1)) := by
  rw [show chunksPos k (x :: xs) = chunksGo k [x] xs k from rfl, chunksGo_eq]
  simp [List.take_succ_cons, List.drop_succ_cons]

theorem chunksPos_append (k : Nat) (l₁ l₂ : List α) (h : l₁.length = k + 1) :
    chunksPos k (l₁ ++ l₂) = l₁ :: chunksPos k l₂ := by
  cases l₁ with
  | nil => simp at h
  | cons x xs =>
    rw [List.cons_append, chunksPos_cons_eq]
    have h₁ : (x :: (xs ++ l₂)).take (k + 1) = x :: xs := by
      rw [show x :: (xs ++ l₂) = (x :: xs) ++ l₂ from rfl, ← h, List.take_left]
    have h₂ : (x :: (xs ++ l₂)).drop (k + 1) = l₂ := by
      rw [show x :: (xs ++ l₂) = (x :: xs) ++ l₂ from rfl, ← h, List.drop_left]
    rw [h₁, h₂]

theorem chunksPos_of_short (k : Nat) (l : List α) (h0 : l ≠ []) (h : l.length ≤ k + 1) :
    chunksPos k l = [l] := by
  cases l with
  | nil => simp at h0
  | cons x xs =>
    rw [chunksPos_cons_eq, List.take_of_length_le h, List.drop_eq_nil_of_le h]
    rfl

theorem chunksPos_chunk_length (k : Nat) : (l : List α) →
    ∀ c ∈ chunksPos k l, c.length ≤ k + 1
  | [] => by simp [chunksPos]
  | x :: xs => by
    rw [chunksPos_cons_eq]
    intro c hc
    rcases List.mem_cons.mp hc with h | h
    · subst h
      simp [List.length_take]
    · exact chunksPos_chunk_length k ((x :: xs).drop (k + 1)) c h
termination_by l => l.length
decreasing_by simp; omega

theorem chunksPos_length (k : Nat) : (l : List α) →
    (chunksPos k l).length = (l.length + k) / (k + 1)
  | [] => by
    have h0 : k / (k + 1) = 0 := Nat.div_eq_of_lt (by omega)
    simp [chunksPos, h0]
  | x :: xs => by
    rw [chunksPos_cons_eq, List.length_cons,
      chunksPos_length k ((x :: xs).drop (k + 1))]
    simp only [List.length_drop, List.length_cons]
    by_cases hc : xs.length + 1 ≤ k + 1
    · have h1 : xs.length + 1 - (k + 1) + k = k := by omega
      rw [h1, Nat.div_eq_of_lt (by omega),
        Nat.div_eq_of_lt_le (by omega : 1 * (k + 1) ≤ xs.length + 1 + k)
          (by omega : xs.length + 1 + k < (1 + 1) * (k + 1))]
    · have he : xs.length + 1 + k = (xs.length + 1 - (k + 1) + k) + (k + 1) := by
        omega
      rw [he, Nat.add_div_right _ (by omega : 0 < k + 1)]
termination_by l => l.length
decreasing_by simp; omega

theorem chunkPadPos_flatten (k : Nat) : (bits : List Bool) →
    ∃ p, (chunkPadPos k bits).flatten = bits ++ List.replicate p false ∧ p ≤ k
  | [] => ⟨0, by simp [chunkPadPos, chunksPos], Nat.zero_le k⟩
  | x :: xs => by
    by_cases hle : (x :: xs).length ≤ k + 1
    · refine ⟨k + 1 - (x :: xs).length, ?_, by simp only [List.length_cons]; omega⟩
      simp only [chunkPadPos]
      rw [chunksPos_of_short k _ (by simp) hle]
      simp
    · push_neg at hle
      simp only [List.length_cons] at hle
      obtain ⟨p, hp, hpk⟩ := chunkPadPos_flatten k ((x :: xs).drop (k + 1))
      refine ⟨p, ?_, hpk⟩
      simp only [chunkPadPos]
      rw [chunksPos_cons_eq, List.map_cons, List.flatten_cons]
      have hlen : ((x :: xs).take (k + 1)).length = k + 1 := by
        simp only [List.length_take, List.length_cons]
        omega
      rw [hlen]
      simp only [Nat.sub_self, List.replicate_zero, List.append_nil]
      rw [show (chunksPos k ((x :: xs).drop (k + 1))).map
            (fun c => c ++ List.replicate (k + 1 - c.length) false) =
          chunkPadPos k ((x :: xs).drop (k + 1)) from rfl]
      rw [hp, ← List.append_assoc, List.take_append_drop]
termination_by bits => bits.length
decreasing_by simp; omega

theorem bitsToBytes_nil : bitsToBytes [] = [] := by
  simp [bitsToBytes, chunksPos]

theorem bitsToBytes_append8 (g rest : List Bool) (h : g.length = 8) :
    bitsToBytes (g ++ rest) = bitsToNat g :: bitsToBytes rest := by
  unfold bitsToBytes
  rw [chunksPos_append 7 g rest h, List.filterMap_cons]
  simp [h]

theorem bitsToBytes_short (l : List Bool) (h : l.length < 8) :
    bitsToBytes l = [] := by
  cases l with
  | nil => simp [bitsToBytes, chunksPos]
  | cons x xs =>
    unfold bitsToBytes
    rw [chunksPos_of_short 7 _ (by simp) (by omega)]
    have h' : xs.length ≠ 7 := by simp at h; omega
    simp [h']

theorem bytesToBits_cons (b : Nat) (data : List Nat) :
    bytesToBits (b :: data) = formatBin 8 b ++ bytesToBits data := by
  simp [bytesToBits]

theorem bytesToBits_length (data : List Nat) (hd : ∀ b ∈ data, b < 256) :
    (bytesToBits data).length = 8 * data.length := by
  induction data with
  | nil => simp [bytesToBits]
  | cons b l ih =>
    have hb : b < 2 ^ 8 := by
      have := hd b (by simp)
      norm_num
      omega
    rw [bytesToBits_cons, List.length_append, formatBin_of_lt (by norm_num) hb,
      natToBits_length, ih (fun x hx => hd x (by simp [hx]))]
    simp [List.length_cons]
    ring

/-- Reassembling the bit string of a byte list (followed by fewer than 8
stray padding bits) recovers exactly the byte list. -/
theorem bitsToBytes_bytesToBits (data : List Nat) (extra : List Bool)
    (hd : ∀ b ∈ data, b < 256) (he : extra.length < 8) :
    bitsToBytes (bytesToBits data ++ extra) = data := by
  induction data with
  | nil => simpa [bytesToBits] using bitsToBytes_short extra he
  | cons b l ih =>
    have hb : b < 2 ^ 8 := by
      have := hd b (by simp)
      norm_num
      omega
    rw [bytesToBits_cons, formatBin_of_lt (by norm_num) hb, List.append_assoc,
      bitsToBytes_append8 _ _ (by simp), bitsToNat_natToBits_of_lt hb,
      ih (fun x hx => hd x (by simp [hx]))]

theorem chunkValsPos_lt (k : Nat) (data : List Nat) :
    ∀ v ∈ chunkValsPos k data, v < 2 ^ (k + 1) := by
  intro v hv
  simp only [chunkValsPos, chunkPadPos, List.map_map, List.mem_map,
    Function.comp_apply] at hv
  obtain ⟨c, hc, rfl⟩ := hv
  have hlen := chunksPos_chunk_length k (bytesToBits data) c hc
  have hv := bitsToNat_lt (c ++ List.replicate (k + 1 - c.length) false)
  simpa [List.length_append, Nat.add_sub_cancel' hlen] using hv

/-! ## String primitives

Python strings are `List Char`.  `str(n)`, `int(tok)`, `','.join(...)`,
`.split(',')`, `.strip()` and the `startswith`-guarded tag removal are
modelled below.  `int` is modelled on its unsigned-decimal fragment (with
surrounding whitespace handled by the explicit `strip` calls of the
sources); every token the channels produce is a plain digit run, and a
token outside the fragment makes `int` raise, i.e. `none`. -/

/-- ASCII digit character of `d` (`d ≤ 9` at every call site). -/
def digitChar (d : Nat) : Char := Char.ofNat (48 + d)

/-- Fuel-driven worker for `natDigits`; structural recursion on the fuel
keeps it kernel-reducible.  `natDigits` supplies `fuel = n`, always enough
(see `natDigits_eq`). -/
def natDigitsGo : Nat → Nat → List Char → List Char
  | 0, n, acc => digitChar n :: acc
  | fuel + 1, n, acc =>
    if n < 10 then digitChar n :: acc
    else natDigitsGo fuel (n / 10) (digitChar (n % 10) :: acc)

/-- Python `str(n)` for a nonnegative integer: decimal digits, no sign. -/
def natDigits (n : Nat) : List Char := natDigitsGo n n []

/-- `int(tok, 10)` digit folding, most significant first. -/
def decFold (s : List Char) : Nat :=
  s.foldl (fun a c => 10 * a + (c.toNat - 48)) 0

/-- Python `int(tok)` on the unsigned-decimal fragment: the token must be a
nonempty digit run, otherwise the call raises `ValueError` (`none`). -/
def parseNat (s : List Char) : Option Nat :=
  if s ≠ [] ∧ s.all Char.isDigit then some (decFold s) else none

/-- Python `tok.strip()` (ASCII-whitespace fragment). -/
def pyStrip (s : List Char) : List Char :=
  ((s.dropWhile Char.isWhitespace).reverse.dropWhile Char.isWhitespace).reverse

/-- Python `s.split(',')`: always at least one token; empty tokens kept. -/
def splitComma : List Char → List (List Char)
  | [] => [[]]
  | c :: rest =>
    if c = ',' then [] :: splitComma rest
    else
      match splitComma rest with
      | [] => [[c]]
      | t :: ts => (c :: t) :: ts

/-- Python `','.join(tokens)`. -/
def joinComma : List (List Char) → List Char
  | [] => []
  | [t] => t
  | t :: t₂ :: ts => t ++ ',' :: joinComma (t₂ :: ts)

/-- `s[len(tag):] if s.startswith(tag) else s`. -/
def stripTag (tag s : List Char) : List Char :=
  if s.take tag.length = tag then s.drop tag.length else s

/-- `[int(x.strip()) for x in s.split(',')]` (no empty-token filter). -/
def parseTokens (s : List Char) : Option (List Nat) :=
  (splitComma s).mapM (fun t => parseNat (pyStrip t))

/-- `[int(p.strip()) for p in s.split(',') if p.strip()]`. -/
def parseTokensFiltered (s : List Char) : Option (List Nat) :=
  (((splitComma s).map pyStrip).filter (fun t => !t.isEmpty)).mapM parseNat

/-! ### Lemmas about the string primitives -/

theorem natDigitsGo_append (fuel : Nat) : ∀ (n : Nat) (acc : List Char),
    natDigitsGo fuel n acc = natDigitsGo fuel n [] ++ acc := by
  induction fuel with
  | zero => intro n acc; simp [natDigitsGo]
  | succ fuel ih =>
    intro n acc
    by_cases h : n < 10
    · simp [natDigitsGo, h]
    · simp only [natDigitsGo, if_neg h]
      rw [ih (n / 10) (digitChar (n % 10) :: acc), ih (n / 10) [digitChar (n % 10)]]
      simp

theorem natDigitsGo_fuel (n : Nat) : ∀ fuel, n ≤ fuel →
    natDigitsGo fuel n [] = natDigits n := by
  induction n using Nat.strong_induction_on with
  | _ n ih =>
    intro fuel hf
    by_cases h : n < 10
    · have h1 : ∀ g : Nat, natDigitsGo g n [] = [digitChar n] := by
        intro g
        cases g with
        | zero => rfl
        | succ g => simp [natDigitsGo, h]
      rw [h1, natDigits, h1]
    · push_neg at h
      obtain ⟨f, rfl⟩ : ∃ f, fuel = f + 1 := ⟨fuel - 1, by omega⟩
      obtain ⟨m, rfl⟩ : ∃ m, n = m + 1 := ⟨n - 1, by omega⟩
      have hstep : ∀ g : Nat, natDigitsGo (g + 1) (m + 1) [] =
          natDigitsGo g ((m + 1) / 10) [] ++ [digitChar ((m + 1) % 10)] := by
        intro g
        simp only [natDigitsGo, if_neg (by omega : ¬ m + 1 < 10)]
        rw [natDigitsGo_append]
      rw [hstep f, natDigits, hstep m]
      congr 1
      rw [ih ((m + 1) / 10) (by omega) f (by omega),
        ih ((m + 1) / 10) (by omega) m (by omega)]

/-- The usual recursive description of decimal printing. -/
theorem natDigits_eq (n : Nat) :
    natDigits n = if n < 10 then [digitChar n]
      else natDigits (n / 10) ++ [digitChar (n % 10)] := by
  by_cases h : n < 10
  · rw [if_pos h, natDigits]
    cases hn : n with
    | zero => rfl
    | succ m => simp [natDigitsGo, hn ▸ h]
  · rw [if_neg h]
    push_neg at h
    obtain ⟨m, rfl⟩ : ∃ m, n = m + 1 := ⟨n - 1, by omega⟩
    rw [natDigits, show natDigitsGo (m + 1) (m + 1) [] =
        natDigitsGo m ((m + 1) / 10) [] ++ [digitChar ((m + 1) % 10)] from by
      simp only [natDigitsGo, if_neg (by omega : ¬ m + 1 < 10)]
      rw [natDigitsGo_append]]
    rw [natDigitsGo_fuel ((m + 1) / 10) m (by omega)]

theorem natDigits_ne_nil (n : Nat) : natDigits n ≠ [] := by
  rw [natDigits_eq]
  split <;> simp

theorem digitChar_isDigit {d : Nat} (h : d < 10) : (digitChar d).isDigit = true := by
  interval_cases d <;> decide

theorem digitChar_toNat {d : Nat} (h : d < 10) : (digitChar d).toNat = 48 + d := by
  interval_cases d <;> decide

theorem natDigits_all_digit (n : Nat) : ∀ c ∈ natDigits n, c.isDigit = true := by
  induction n using Nat.strong_induction_on with
  | _ n ih =>
    by_cases h : n < 10
    · rw [natDigits_eq, if_pos h]
      intro c hc
      simp at hc
      subst hc
      exact digitChar_isDigit h
    · rw [natDigits_eq, if_neg h]
      intro c hc
      rcases List.mem_append.mp hc with h' | h'
      · exact ih (n / 10) (Nat.div_lt_self (by omega) (by omega)) c h'
      · simp at h'
        subst h'
        exact digitChar_isDigit (Nat.mod_lt _ (by omega))

theorem decFold_natDigits (n : Nat) : decFold (natDigits n) = n := by
  induction n using Nat.strong_induction_on with
  | _ n ih =>
    by_cases h : n < 10
    · rw [natDigits_eq, if_pos h]
      simp [decFold, digitChar_toNat h]
    · rw [natDigits_eq, if_neg h]
      have h1 : decFold (natDigits (n / 10) ++ [digitChar (n % 10)]) =
          10 * decFold (natDigits (n / 10)) + ((digitChar (n % 10)).toNat - 48) := by
        unfold decFold
        rw [List.foldl_append]
        simp
      rw [h1, ih (n / 10) (Nat.div_lt_self (by omega) (by omega)),
        digitChar_toNat (Nat.mod_lt _ (by omega))]
      omega

theorem isDigit_ne_comma {c : Char} (h : c.isDigit = true) : c ≠ ',' := by
  intro hc
  rw [hc] at h
  exact absurd h (by decide)

theorem isDigit_not_whitespace {c : Char} (h : c.isDigit = true) :
    c.isWhitespace = false := by
  by_contra hw
  simp only [Bool.not_eq_false, Char.isWhitespace, Bool.or_eq_true,
    decide_eq_true_eq] at hw
  rcases hw with ((h' | h') | h') | h' <;> rw [h'] at h <;>
    exact absurd h (by decide)

theorem dropWhile_of_all_neg {p : α → Bool} {s : List α}
    (h : ∀ c ∈ s, p c = false) : s.dropWhile p = s := by
  cases s with
  | nil => rfl
  | cons x xs => simp [List.dropWhile_cons, h x (List.mem_cons_self x xs)]

theorem pyStrip_of_digits {s : List Char} (h : ∀ c ∈ s, c.isDigit = true) :
    pyStrip s = s := by
  have h1 : ∀ c ∈ s, c.isWhitespace = false :=
    fun c hc => isDigit_not_whitespace (h c hc)
  unfold pyStrip
  rw [dropWhile_of_all_neg h1,
    dropWhile_of_all_neg (fun c hc => h1 c (List.mem_reverse.mp hc)),
    List.reverse_reverse]

theorem parseNat_natDigits (n : Nat) : parseNat (natDigits n) = some n := by
  unfold parseNat
  rw [if_pos ⟨natDigits_ne_nil n, List.all_eq_true.mpr (natDigits_all_digit n)⟩,
    decFold_natDigits]

theorem parseNat_pyStrip_natDigits (n : Nat) :
    parseNat (pyStrip (natDigits n)) = some n := by
  rw [pyStrip_of_digits (natDigits_all_digit n), parseNat_natDigits]

theorem splitComma_of_commafree {t : List Char} (h : ∀ c ∈ t, c ≠ ',') :
    splitComma t = [t] := by
  induction t with
  | nil => rfl
  | cons c rest ih =>
    have hc : c ≠ ',' := h c (by simp)
    simp only [splitComma, if_neg hc]
    rw [ih (fun x hx => h x (by simp [hx]))]

theorem splitComma_append_comma {t rest : List Char} (h : ∀ c ∈ t, c ≠ ',') :
    splitComma (t ++ ',' :: rest) = t :: splitComma rest := by
  induction t with
  | nil => simp [splitComma]
  | cons c t ih =>
    have hc : c ≠ ',' := h c (by simp)
    simp only [List.cons_append, splitComma, if_neg hc, List.append_eq]
    rw [ih (fun x hx => h x (by simp [hx]))]

theorem splitComma_joinComma : ∀ (toks : List (List Char)),
    toks ≠ [] → (∀ t ∈ toks, ∀ c ∈ t, c ≠ ',') →
    splitComma (joinComma toks) = toks
  | [], h, _ => absurd rfl h
  | [t], _, hc => by
    simp only [joinComma]
    exact splitComma_of_commafree (hc t (by simp))
  | t :: t₂ :: ts, _, hc => by
    simp only [joinComma]
    rw [splitComma_append_comma (hc t (by simp)),
      splitComma_joinComma (t₂ :: ts) (by simp) (fun x hx => hc x (by simp [hx]))]

theorem stripTag_append (tag rest : List Char) :
    stripTag tag (tag ++ rest) = rest := by
  unfold stripTag
  rw [if_pos (List.take_left tag rest), List.drop_left]

theorem mapM_map_some {f : α → Option β} {g : β → α} (l : List β)
    (h : ∀ x ∈ l, f (g x) = some x) : (l.map g).mapM f = some l := by
  induction l with
  | nil => rfl
  | cons x l ih =>
    rw [List.map_cons, List.mapM_cons, h x (by simp),
      ih (fun y hy => h y (by simp [hy]))]
    rfl

theorem natDigits_commafree (n : Nat) : ∀ c ∈ natDigits n, c ≠ ',' :=
  fun c hc => isDigit_ne_comma (natDigits_all_digit n c hc)

theorem parseTokens_join (vals : List Nat) (h : vals ≠ []) :
    parseTokens (joinComma (vals.map natDigits)) = some vals := by
  unfold parseTokens
  rw [splitComma_joinComma (vals.map natDigits) (by simpa using h)
    (fun t ht c hc => by
      simp only [List.mem_map] at ht
      obtain ⟨n, _, rfl⟩ := ht
      exact natDigits_commafree n c hc)]
  exact mapM_map_some vals (fun n _ => parseNat_pyStrip_natDigits n)

theorem parseTokensFiltered_join (vals : List Nat) :
    parseTokensFiltered (joinComma (vals.map natDigits)) = some vals := by
  cases vals with
  | nil => rfl
  | cons v vs =>
    unfold parseTokensFiltered
    rw [splitComma_joinComma ((v :: vs).map natDigits) (by simp)
      (fun t ht c hc => by
        simp only [List.mem_map] at ht
        obtain ⟨n, _, rfl⟩ := ht
        exact natDigits_commafree n c hc)]
    rw [List.map_map,
      List.map_congr_left
        (fun n _ => by
          simp only [Function.comp_apply]
          exact pyStrip_of_digits (natDigits_all_digit n)),
      List.filter_eq_self.mpr
        (fun t ht => by
          simp only [List.mem_map] at ht
          obtain ⟨n, _, rfl⟩ := ht
          simp [List.isEmpty_iff, natDigits_ne_nil n])]
    exact mapM_map_some (v :: vs) (fun n _ => parseNat_natDigits n)

/-! ## Channels

One Lean definition per Python method.  Config dictionaries become explicit
structures holding the recognized keys with their defaults. -/

/-! ### TTL-byte channel (`Agent/src/channels/ttl_channel.py`) -/

/-- Recognized configuration of `TTLChannel`: `offset` (default 0),
`marker_start`, `marker_end` (default `None`).  Marker values are the
nonnegative TTL sentinels the lab uses. -/
structure TTLCfg where
  offset : Int := 0
  markerStart : Option Nat := none
  markerEnd : Option Nat := none

/-- Per-byte mapping of `TTLChannel.encode`:
`ttl = (byte + offset) % 256; if ttl == 0: ttl = 1`. -/
def ttlMapByte (offset : Int) (b : Nat) : Nat :=
  let t : Int := ((b : Int) + offset) % 256
  (if t = 0 then 1 else t).toNat

/-- Per-value mapping of `TTLChannel.decode`: `byte = (ttl - offset) % 256`. -/
def ttlUnmap (offset : Int) (v : Nat) : Nat :=
  (((v : Int) - offset) % 256).toNat

/-- The value list built inside `TTLChannel.encode`: optional start marker,
one mapped value per payload byte, optional end marker. -/
def ttlEncValues (cfg : TTLCfg) (data : List Nat) : List Nat :=
  cfg.markerStart.toList ++ data.map (ttlMapByte cfg.offset) ++ cfg.markerEnd.toList

/-- `TTLChannel.encode`: `"TTL:" + ",".join(ttl_values)`. -/
def ttlEncode (cfg : TTLCfg) (data : List Nat) : List Char :=
  "TTL:".toList ++ joinComma ((ttlEncValues cfg data).map natDigits)

/-- Start-marker strip of `TTLChannel.decode`: one conditional removal at
position 0 (`ttl_values[0] == marker_start`). -/
def stripStartM (m? : Option Nat) (vs : List Nat) : List Nat :=
  match m?, vs with
  | some m, v :: rest => if v = m then rest else v :: rest
  | _, vs => vs

/-- End-marker strip of `TTLChannel.decode`: one conditional removal at the
last position; `ttl_values[-1]` on an empty list raises `IndexError`. -/
def stripEndM (m? : Option Nat) (vs : List Nat) : Option (List Nat) :=
  match m? with
  | none => some vs
  | some m =>
    match vs.getLast? with
    | none => none
    | some v => some (if v = m then vs.dropLast else vs)

/-- `TTLChannel.decode`: remove the `"TTL:"` tag if present, split on commas,
`int` every token (no empty-token filter!), strip markers, reverse the
offset modulo 256. -/
def ttlDecode (cfg : TTLCfg) (s : List Char) : Option (List Nat) := do
  let vals ← parseTokens (stripTag "TTL:".toList s)
  let vals := stripStartM cfg.markerStart vals
  let vals ← stripEndM cfg.markerEnd vals
  pure (vals.map (ttlUnmap cfg.offset))

/-- `TTLChannel.get_ttl_values`: re-parse the encoded string, markers
included, no empty-token filter (`int('')` raises on the empty payload
with no markers). -/
def getTtlValues (cfg : TTLCfg) (data : List Nat) : Option (List Nat) :=
  parseTokens (stripTag "TTL:".toList (ttlEncode cfg data))

/-! ### TTL-seconds channel (`src/channels/ttl_dns_channel.py`) -/

/-- Recognized configuration of `TTLDNSChannel` (same keys as `TTLChannel`;
markers go through `int(...)`). -/
structure TTLDNSCfg where
  offset : Int := 0
  markerStart : Option Nat := none
  markerEnd : Option Nat := none

/-- Per-byte mapping of `TTLDNSChannel.encode`:
`ttl = (b + offset) % 65536; if ttl == 0: ttl = 1`. -/
def ttlDnsMapByte (offset : Int) (b : Nat) : Nat :=
  let t : Int := ((b : Int) + offset) % 65536
  (if t = 0 then 1 else t).toNat

/-- The value list of `TTLDNSChannel.encode`. -/
def ttlDnsEncValues (cfg : TTLDNSCfg) (data : List Nat) : List Nat :=
  cfg.markerStart.toList ++ data.map (ttlDnsMapByte cfg.offset) ++ cfg.markerEnd.toList

/-- `TTLDNSChannel.encode`: `"DNS-TTL:" + ",".join(...)`. -/
def ttlDnsEncode (cfg : TTLDNSCfg) (data : List Nat) : List Char :=
  "DNS-TTL:".toList ++ joinComma ((ttlDnsEncValues cfg data).map natDigits)

/-- `TTLDNSChannel.decode`: split with the empty-token filter, strip markers
(guarded by `ttl_values and ...`, so no IndexError here), then
`(ttl - offset) % 256` — modulo 256, not 65536. -/
def ttlDnsDecode (cfg : TTLDNSCfg) (s : List Char) : Option (List Nat) := do
  let vals ← parseTokensFiltered (stripTag "DNS-TTL:".toList s)
  let vals := match cfg.markerStart with
    | some m => if vals.head? = some m then vals.tail else vals
    | none => vals
  let vals := match cfg.markerEnd with
    | some m => if vals.getLast? = some m then vals.dropLast else vals
    | none => vals
  pure (vals.map (ttlUnmap cfg.offset))

/-- `TTLDNSChannel.get_ttl_values` (empty-token filter present). -/
def getTtlDnsValues (cfg : TTLDNSCfg) (data : List Nat) : Option (List Nat) :=
  parseTokensFiltered (stripTag "DNS-TTL:".toList (ttlDnsEncode cfg data))

/-! ### TXID channel (`Agent/src/channels/txid_channel.py`) -/

/-- `for i in range(0, len(data), 2)` with `chunk.ljust`-style zero padding
of a trailing odd byte (`chunk + b'\x00'`). -/
def txidPairs : List Nat → List (Nat × Nat)
  | [] => []
  | [b] => [(b, 0)]
  | b0 :: b1 :: rest => (b0, b1) :: txidPairs rest

/-- The TXID integers of `TXIDChannel.encode`: `struct.unpack('>H', chunk)`
is `256*b0 + b1`, optionally masked with `0x7FFF` when
`preserve_high_bit` is set. -/
def txidValues (preserveHighBit : Bool) (data : List Nat) : List Nat :=
  (txidPairs data).map (fun p =>
    let v := 256 * p.1 + p.2
    if preserveHighBit then v &&& 0x7FFF else v)

/-- `TXIDChannel.encode`: `"TXID:" + ",".join(...)`. -/
def txidEncode (preserveHighBit : Bool) (data : List Nat) : List Char :=
  "TXID:".toList ++ joinComma ((txidValues preserveHighBit data).map natDigits)

/-- `TXIDChannel.decode`: parse the values (empty tokens filtered) and emit
`struct.pack('>H', txid & 0xFFFF)`, i.e. two big-endian bytes per value. -/
def txidDecode (s : List Char) : Option (List Nat) := do
  let vals ← parseTokensFiltered (stripTag "TXID:".toList s)
  pure (vals.flatMap (fun v => [(v &&& 0xFFFF) / 256, (v &&& 0xFFFF) % 256]))

/-- `TXIDChannel.get_txid_values`: re-parse the encoded string. -/
def getTxidValues (preserveHighBit : Bool) (data : List Nat) : Option (List Nat) :=
  parseTokensFiltered (stripTag "TXID:".toList (txidEncode preserveHighBit data))

/-! ### RD-flag channel (`Agent/src/channels/rd_flag_channel.py`) -/

/-- Bit sent for a payload bit under the optional `invert` configuration
(`'1' if b == '0' else '0'` applied to a `'0'/'1'` string). -/
def rdBit (invert : Bool) (b : Bool) : Bool :=
  if invert then !b else b

/-- `RDFlagChannel.encode`: `"RD:" + ",".join(bits)`, one character per bit. -/
def rdEncode (invert : Bool) (data : List Nat) : List Char :=
  "RD:".toList ++
    joinComma (((bytesToBits data).map (rdBit invert)).map
      (fun b => [if b then '1' else '0']))

/-- `RDFlagChannel.decode`: drop commas and spaces, optionally invert
(`'1' if b == '0' else '0'`, which maps any non-`'0'` character to `'0'`),
then `int(chunk, 2)` over 8-character groups — raising (`none`) if a
remaining character is not a binary digit. -/
def rdDecode (invert : Bool) (s : List Char) : Option (List Nat) :=
  let bits := (stripTag "RD:".toList s).filter (fun c => c != ',' && c != ' ')
  let bits := if invert then bits.map (fun c => if c = '0' then '1' else '0') else bits
  if bits.all (fun c => c == '0' || c == '1') then
    some (bitsToBytes (bits.map (fun c => c == '1')))
  else none

/-- `RDFlagChannel.get_rd_flags`: booleans, one per encoded bit character. -/
def getRdFlags (invert : Bool) (data : List Nat) : List Bool :=
  ((stripTag "RD:".toList (rdEncode invert data)).filter
    (fun c => c != ',' && c != ' ')).map (fun c => c == '1')

/-! ### Label-count channel (`src/channels/label_count_channel.py`) -/

/-- Recognized configuration of `LabelCountChannel` (the `label_prefix` key
only affects query-name synthesis, not the value sequence). -/
structure LabelCfg where
  minLabels : Nat := 1
  maxLabels : Nat := 8

/-- `self.num_values = max_labels - min_labels + 1`. -/
def labelNumValues (cfg : LabelCfg) : Nat :=
  cfg.maxLabels - cfg.minLabels + 1

/-- `self.bits_per_query = int(math.log2(num_values))`. -/
def labelBits (cfg : LabelCfg) : Nat :=
  log2Floor (labelNumValues cfg)

/-- The label counts of `LabelCountChannel.encode`:
`min(value + min_labels, max_labels)` per chunk.  With zero bits per query
the chunking loop `range(0, len(bits), 0)` raises `ValueError` (`none`). -/
def labelCounts (cfg : LabelCfg) (data : List Nat) : Option (List Nat) :=
  if labelBits cfg = 0 then none
  else some ((chunkValsPos (labelBits cfg - 1) data).map
    (fun v => min (v + cfg.minLabels) cfg.maxLabels))

/-- `LabelCountChannel.encode`: `"LABELCOUNT:" + ",".join(...)`. -/
def labelEncode (cfg : LabelCfg) (data : List Nat) : Option (List Char) :=
  (labelCounts cfg data).map
    (fun cs => "LABELCOUNT:".toList ++ joinComma (cs.map natDigits))

/-- Per-count mapping of `LabelCountChannel.decode`:
`value = count - min_labels; value = max(0, min(value, num_values - 1))`. -/
def labelClamp (cfg : LabelCfg) (c : Nat) : Nat :=
  (max 0 (min ((c : Int) - cfg.minLabels) ((labelNumValues cfg : Int) - 1))).toNat

/-- `LabelCountChannel.decode`: parse counts (empty tokens filtered), clamp,
render each as `format(value, f'0{bits}b')` and reassemble full bytes. -/
def labelDecode (cfg : LabelCfg) (s : List Char) : Option (List Nat) := do
  let counts ← parseTokensFiltered (stripTag "LABELCOUNT:".toList s)
  pure (bitsToBytes (counts.flatMap
    (fun c => formatBin (labelBits cfg) (labelClamp cfg c))))

/-- `LabelCountChannel.get_label_counts`: re-parse the encoded string. -/
def getLabelCounts (cfg : LabelCfg) (data : List Nat) : Option (List Nat) := do
  let e ← labelEncode cfg data
  parseTokensFiltered (stripTag "LABELCOUNT:".toList e)

/-! ### QType channel (`src/channels/qtype_channel.py`) -/

/-- The 16-entry default type list (`QTypeChannel.DEFAULT_TYPES`). -/
def qtypeDefaultTypes : List String :=
  ["A", "AAAA", "TXT", "MX", "CNAME", "NS", "PTR", "SOA",
   "SRV", "CAA", "DNSKEY", "DS", "NAPTR", "TLSA", "ANY", "AXFR"]

/-- The chunk integers `QTypeChannel.get_qtype_sequence` derives from the
payload (`bits_per_query = int(math.log2(len(types)))`). -/
def qtypeChunkVals (types : List String) (data : List Nat) : List Nat :=
  chunkValsPos (log2Floor types.length - 1) data

/-- `QTypeChannel.get_qtype_sequence`.  `math.log2(0)` raises at
construction for an empty list, and a zero chunk width makes
`range(0, len(bits), 0)` raise (`none`); otherwise each chunk value `v`
selects `types[v]`, falling back to `types[0]` when `v` is out of range. -/
def qtypeSequence (types : List String) (data : List Nat) : Option (List String) :=
  if types.length = 0 ∨ log2Floor types.length = 0 then none
  else some ((qtypeChunkVals types data).map
    (fun v => if v < types.length then types.getD v "" else types.getD 0 ""))

/-! ### Byte-aligned channels -/

/-- The RFC 4648 base32 alphabet used by `base64.b32encode`. -/
def b32Alphabet : List Char := "ABCDEFGHIJKLMNOPQRSTUVWXYZ234567".toList

/-- Alphabet character of a 5-bit group value. -/
def b32Char (v : Nat) : Char := b32Alphabet.getD v 'A'

/-- Reverse alphabet lookup (`b32rev` in `base64.b32decode`); `none` models
the `Non-base32 digit found` error. -/
def b32Val (c : Char) : Option Nat := b32Alphabet.findIdx? (fun x => x = c)

/-- Bit-level model of `base64.b32encode(data)` with the `'='` padding
already stripped (the channels immediately do `.rstrip('=')`): the payload
bits in 5-bit groups, the last group zero-padded, each group mapped through
the alphabet.  `b32encode` itself emits these characters followed by
`'='` up to the next multiple of 8. -/
def b32encodeStripped (data : List Nat) : List Char :=
  (chunkValsPos 4 data).map b32Char

/-- Bit-level model of strict `base64.b32decode(s)`: the length must be a
multiple of 8, the `'='` tail must have one of the five legal lengths, all
remaining characters must be alphabet members; the 5-bit groups are then
concatenated and every full byte kept (`decoded[-5:] = last[:leftover]`
keeps exactly `floor(5k/8)` bytes for `k` data characters). -/
def b32decode (s : List Char) : Option (List Nat) :=
  if s.length % 8 ≠ 0 then none
  else
    let t := (s.reverse.dropWhile (fun c => c == '=')).reverse
    let pad := s.length - t.length
    if ¬ (pad = 0 ∨ pad = 1 ∨ pad = 3 ∨ pad = 4 ∨ pad = 6) then none
    else
      match t.mapM b32Val with
      | none => none
      | some vs => some (bitsToBytes ((vs.map (natToBits 5)).flatten))

/-- `Base32Channel.encode`: strip padding, lowercase. -/
def base32Encode (data : List Nat) : List Char :=
  (b32encodeStripped data).map Char.toLower

/-- `Base32Channel.decode`: uppercase, re-pad to a multiple of 8, decode. -/
def base32Decode (s : List Char) : Option (List Nat) :=
  let u := s.map Char.toUpper
  b32decode (u ++ List.replicate ((8 - u.length % 8) % 8) '=')

/-- The lowercase hex digits of `bytes.hex()`. -/
def hexDigits : List Char := "0123456789abcdef".toList

/-- Hex digit character of `d < 16`. -/
def hexDigitChar (d : Nat) : Char := hexDigits.getD d '0'

/-- `HexChannel.encode`: `data.hex()`, two lowercase digits per byte. -/
def hexEncode (data : List Nat) : List Char :=
  data.flatMap (fun b => [hexDigitChar (b / 16), hexDigitChar (b % 16)])

/-- Hex digit value, either case (`bytes.fromhex` accepts both). -/
def hexVal (c : Char) : Option Nat := hexDigits.findIdx? (fun x => x = c.toLower)

/-- `HexChannel.decode`: `bytes.fromhex` on its whitespace-free fragment —
pairs of hex digits; an odd length or a non-hex character raises. -/
def hexDecode : List Char → Option (List Nat)
  | [] => some []
  | [_] => none
  | c₁ :: c₂ :: rest => do
    let hi ← hexVal c₁
    let lo ← hexVal c₂
    let tl ← hexDecode rest
    pure ((16 * hi + lo) :: tl)

/-- Worker for `XORBase32Channel._xor_cipher`
(`for i, byte in enumerate(data): byte ^ key[i % len(key)]`). -/
def xorCipherFrom (key : List Nat) (i : Nat) : List Nat → List Nat
  | [] => []
  | b :: rest => (b ^^^ key.getD (i % key.length) 0) :: xorCipherFrom key (i + 1) rest

/-- `XORBase32Channel._xor_cipher`: identity for an empty key
(`if not self.key: return data`). -/
def xorCipher (key : List Nat) (data : List Nat) : List Nat :=
  if key = [] then data else xorCipherFrom key 0 data

/-- `XORBase32Channel.encode`: XOR, then base32 (same string pipeline as
`Base32Channel.encode`). -/
def xorB32Encode (key : List Nat) (data : List Nat) : List Char :=
  base32Encode (xorCipher key data)

/-- `XORBase32Channel.decode`: base32-decode, then XOR again. -/
def xorB32Decode (key : List Nat) (s : List Char) : Option (List Nat) :=
  (base32Decode s).map (xorCipher key)

/-! ### Case-toggle channel (`src/channels/case_toggle_channel.py`) -/

/-- `(base_label * (len(bits) // len(base_label) + 1))[:len(bits)]`. -/
def caseBase (baseLabel : List Char) (n : Nat) : List Char :=
  (List.replicate (n / baseLabel.length + 1) baseLabel).flatten.take n

/-- `CaseToggleChannel.encode`: one character per payload bit, upper for 1
and lower for 0 on alphabetic template characters.  An empty `base_label`
makes `len(bits) // len(self.base_label)` raise `ZeroDivisionError`. -/
def caseToggleEncode (baseLabel : List Char) (data : List Nat) : Option (List Char) :=
  if baseLabel = [] then none
  else
    let bits := bytesToBits data
    some (List.zipWith
      (fun (bit : Bool) (ch : Char) =>
        if ch.isAlpha then (if bit then ch.toUpper else ch.toLower) else ch)
      bits (caseBase baseLabel bits.length))

/-! ## Channel lemmas -/

theorem ttlDecode_join (cfg : TTLCfg) (vals : List Nat) (h : vals ≠ []) :
    ttlDecode cfg ("TTL:".toList ++ joinComma (vals.map natDigits)) =
      Option.map (List.map (ttlUnmap cfg.offset))
        (stripEndM cfg.markerEnd (stripStartM cfg.markerStart vals)) := by
  unfold ttlDecode
  rw [stripTag_append, parseTokens_join vals h]
  cases hE : stripEndM cfg.markerEnd (stripStartM cfg.markerStart vals) <;>
    simp [hE]

theorem ttlDecode_join_noMarkers (off : Int) (vals : List Nat) (h : vals ≠ []) :
    ttlDecode ⟨off, none, none⟩ ("TTL:".toList ++ joinComma (vals.map natDigits)) =
      some (vals.map (ttlUnmap off)) := by
  rw [ttlDecode_join ⟨off, none, none⟩ vals h]
  cases vals <;> rfl

theorem ttlDnsDecode_join_noMarkers (off : Int) (vals : List Nat) :
    ttlDnsDecode ⟨off, none, none⟩
      ("DNS-TTL:".toList ++ joinComma (vals.map natDigits)) =
      some (vals.map (ttlUnmap off)) := by
  unfold ttlDnsDecode
  rw [stripTag_append, parseTokensFiltered_join]
  rfl

theorem labelDecode_join (cfg : LabelCfg) (counts : List Nat) :
    labelDecode cfg ("LABELCOUNT:".toList ++ joinComma (counts.map natDigits)) =
      some (bitsToBytes (counts.flatMap
        (fun c => formatBin (labelBits cfg) (labelClamp cfg c)))) := by
  unfold labelDecode
  rw [stripTag_append, parseTokensFiltered_join]
  rfl

theorem txidDecode_txidEncode (preserveHighBit : Bool) (data : List Nat) :
    txidDecode (txidEncode preserveHighBit data) =
      some ((txidValues preserveHighBit data).flatMap
        (fun v => [(v &&& 0xFFFF) / 256, (v &&& 0xFFFF) % 256])) := by
  unfold txidDecode txidEncode
  rw [stripTag_append, parseTokensFiltered_join]
  rfl

theorem txidPairs_bounds : (data : List Nat) → (∀ b ∈ data, b < 256) →
    ∀ p ∈ txidPairs data, p.1 < 256 ∧ p.2 < 256
  | [], _, p, hp => by simp [txidPairs] at hp
  | [b], hd, p, hp => by
    simp only [txidPairs, List.mem_singleton] at hp
    subst hp
    exact ⟨hd b (by simp), by omega⟩
  | b0 :: b1 :: rest, hd, p, hp => by
    simp only [txidPairs, List.mem_cons] at hp
    rcases hp with hp | hp
    · subst hp
      exact ⟨hd b0 (by simp), hd b1 (by simp)⟩
    · exact txidPairs_bounds rest (fun x hx => hd x (by simp [hx])) p hp

theorem txidPairs_flatten : (data : List Nat) →
    (txidPairs data).flatMap (fun p => [p.1, p.2]) =
      if data.length % 2 = 0 then data else data ++ [0]
  | [] => rfl
  | [b] => rfl
  | b0 :: b1 :: rest => by
    have ih := txidPairs_flatten rest
    have h2 : (b0 :: b1 :: rest).length % 2 = rest.length % 2 := by
      simp only [List.length_cons]
      omega
    simp only [txidPairs, List.flatMap_cons, ih, h2]
    by_cases h : rest.length % 2 = 0 <;> simp [h]

theorem flatMap_congr_mem {l : List α} {f g : α → List β}
    (h : ∀ x ∈ l, f x = g x) : l.flatMap f = l.flatMap g := by
  induction l with
  | nil => rfl
  | cons x xs ih =>
    simp only [List.flatMap_cons, h x (by simp),
      ih (fun y hy => h y (by simp [hy]))]

theorem and_ffff_eq (v : Nat) : v &&& 0xFFFF = v % 65536 := by
  have h := Nat.and_pow_two_sub_one_eq_mod v 16
  norm_num at h
  exact h

theorem and_7fff_eq (v : Nat) : v &&& 0x7FFF = v % 32768 := by
  have h := Nat.and_pow_two_sub_one_eq_mod v 15
  norm_num at h
  exact h

theorem filter_cons_pos (p : α → Bool) (a : α) (l : List α) (h : p a = true) :
    (a :: l).filter p = a :: l.filter p := by
  simp [List.filter_cons, h]

theorem filter_cons_neg (p : α → Bool) (a : α) (l : List α) (h : p a = false) :
    (a :: l).filter p = l.filter p := by
  simp [List.filter_cons, h]

theorem filter_joinComma_chars : (cs : List Char) →
    (∀ c ∈ cs, (c != ',' && c != ' ') = true) →
    (joinComma (cs.map (fun c => [c]))).filter (fun c => c != ',' && c != ' ') = cs
  | [], _ => rfl
  | [c], h => by
    simp only [List.map_cons, List.map_nil, joinComma]
    rw [filter_cons_pos _ c _ (h c (by simp))]
    rfl
  | c :: c₂ :: cs, h => by
    simp only [List.map_cons, joinComma, List.cons_append, List.nil_append]
    rw [filter_cons_pos _ c _ (h c (by simp)),
      filter_cons_neg _ ',' _ (by decide)]
    have ih := filter_joinComma_chars (c₂ :: cs) (fun x hx => h x (by simp [hx]))
    simp only [List.map_cons] at ih
    rw [ih]

theorem rdDecode_rdEncode (invert : Bool) (data : List Nat)
    (hd : ∀ b ∈ data, b < 256) :
    rdDecode invert (rdEncode invert data) = some data := by
  have hbytes := bitsToBytes_bytesToBits data [] hd (by simp)
  rw [List.append_nil] at hbytes
  unfold rdDecode rdEncode
  rw [stripTag_append]
  rw [show ((bytesToBits data).map (rdBit invert)).map
        (fun b => [if b then '1' else '0']) =
      (((bytesToBits data).map (rdBit invert)).map
        (fun b => if b then '1' else '0')).map (fun c => [c]) from by
    simp [List.map_map, Function.comp]]
  rw [filter_joinComma_chars _ (by
    intro c hc
    simp only [List.mem_map] at hc
    obtain ⟨b, _, rfl⟩ := hc
    cases b <;> decide)]
  cases invert with
  | false =>
    simp only [Bool.false_eq_true, if_false, List.map_map]
    rw [if_pos (List.all_eq_true.mpr (by
      intro c hc
      simp only [List.mem_map] at hc
      obtain ⟨b, _, rfl⟩ := hc
      cases b <;> decide))]
    rw [List.map_congr_left (fun b _ => show _ = id b from by cases b <;> rfl),
      List.map_id, hbytes]
  | true =>
    simp only [if_true, List.map_map]
    rw [if_pos (List.all_eq_true.mpr (by
      intro c hc
      simp only [List.mem_map] at hc
      obtain ⟨b, _, rfl⟩ := hc
      cases b <;> decide))]
    rw [List.map_congr_left (fun b _ => show _ = id b from by cases b <;> rfl),
      List.map_id, hbytes]

theorem hexVal_hexDigitChar {d : Nat} (h : d < 16) :
    hexVal (hexDigitChar d) = some d := by
  interval_cases d <;> decide

theorem hexDecode_hexEncode : (data : List Nat) → (∀ b ∈ data, b < 256) →
    hexDecode (hexEncode data) = some data
  | [], _ => rfl
  | b :: l, hd => by
    have hb := hd b (by simp)
    have h1 : b / 16 < 16 := by omega
    have h2 : b % 16 < 16 := by omega
    have ih := hexDecode_hexEncode l (fun x hx => hd x (by simp [hx]))
    simp only [hexEncode, List.flatMap_cons, List.cons_append, List.nil_append]
    rw [show l.flatMap (fun b => [hexDigitChar (b / 16), hexDigitChar (b % 16)]) =
        hexEncode l from rfl]
    have hdm : 16 * (b / 16) + b % 16 = b := Nat.div_add_mod b 16
    simp [hexDecode, hexVal_hexDigitChar h1, hexVal_hexDigitChar h2, ih, hdm]

theorem getD_lt (key : List Nat) (hk : ∀ k ∈ key, k < 256) (i : Nat) :
    key.getD i 0 < 256 := by
  rcases Nat.lt_or_ge i key.length with h | h
  · rw [List.getD_eq_getElem key 0 h]
    exact hk _ (List.getElem_mem h)
  · rw [List.getD_eq_default key 0 h]
    omega

theorem xorCipherFrom_invol (key : List Nat) :
    ∀ (data : List Nat) (i : Nat),
    xorCipherFrom key i (xorCipherFrom key i data) = data := by
  intro data
  induction data with
  | nil => intro i; rfl
  | cons b l ih =>
    intro i
    simp only [xorCipherFrom, ih, Nat.xor_cancel_right]

theorem xorCipher_invol (key data : List Nat) :
    xorCipher key (xorCipher key data) = data := by
  unfold xorCipher
  split
  · rfl
  · exact xorCipherFrom_invol key data 0

theorem xorCipherFrom_bounds (key : List Nat) (hk : ∀ k ∈ key, k < 256) :
    ∀ (data : List Nat) (i : Nat), (∀ b ∈ data, b < 256) →
    ∀ x ∈ xorCipherFrom key i data, x < 256 := by
  intro data
  induction data with
  | nil => intro i _ x hx; simp [xorCipherFrom] at hx
  | cons b l ih =>
    intro i hd x hx
    simp only [xorCipherFrom, List.mem_cons] at hx
    rcases hx with hx | hx
    · subst hx
      have h256 : (2 : Nat) ^ 8 = 256 := by norm_num
      have h1 : b < 2 ^ 8 := by rw [h256]; exact hd b (by simp)
      have h2 : key.getD (i % key.length) 0 < 2 ^ 8 := by
        rw [h256]
        exact getD_lt key hk (i % key.length)
      have h3 := Nat.xor_lt_two_pow h1 h2
      rw [h256] at h3
      exact h3
    · exact ih (i + 1) (fun y hy => hd y (by simp [hy])) x hx

theorem xorCipher_bounds (key : List Nat) (data : List Nat)
    (hk : ∀ k ∈ key, k < 256) (hd : ∀ b ∈ data, b < 256) :
    ∀ x ∈ xorCipher key data, x < 256 := by
  unfold xorCipher
  split
  · exact hd
  · exact xorCipherFrom_bounds key hk data 0 hd

/-! ### Base32 lemmas -/

theorem dropWhile_replicate_append (p : α → Bool) (a : α) (n : Nat) (l : List α)
    (ha : p a = true) :
    (List.replicate n a ++ l).dropWhile p = l.dropWhile p := by
  induction n with
  | zero => simp
  | succ n ih => simp [List.replicate_succ, List.dropWhile_cons, ha, ih]

/-- `rstrip` of a string made of non-`a` characters followed by copies of
`a` recovers the former. -/
theorem rstrip_eq_append (l : List α) (p : α → Bool) (n : Nat) (a : α)
    (ha : p a = true) (hl : ∀ x ∈ l, p x = false) :
    ((l ++ List.replicate n a).reverse.dropWhile p).reverse = l := by
  rw [List.reverse_append, List.reverse_replicate,
    dropWhile_replicate_append _ _ _ _ ha,
    dropWhile_of_all_neg (fun x hx => hl x (List.mem_reverse.mp hx)),
    List.reverse_reverse]

/-- Case round trip, reverse lookup, and non-padding of every alphabet
character. -/
theorem b32Char_facts : ∀ v : Fin 32,
    (b32Char v.val).toLower.toUpper = b32Char v.val ∧
    b32Val (b32Char v.val) = some v.val ∧
    ((b32Char v.val == '=') = false) := by decide

theorem chunkPadPos_length (k : Nat) (bits : List Bool) :
    ∀ c ∈ chunkPadPos k bits, c.length = k + 1 := by
  intro c hc
  simp only [chunkPadPos, List.mem_map] at hc
  obtain ⟨c₀, hc₀, rfl⟩ := hc
  have := chunksPos_chunk_length k bits c₀ hc₀
  simp only [List.length_append, List.length_replicate]
  omega

/-- Re-rendering the chunk values at width 5 recovers the padded chunks. -/
theorem natToBits5_chunkVals (data : List Nat) :
    (chunkValsPos 4 data).map (natToBits 5) =
      chunkPadPos 4 (bytesToBits data) := by
  unfold chunkValsPos
  rw [List.map_map]
  calc (chunkPadPos 4 (bytesToBits data)).map (natToBits 5 ∘ bitsToNat)
      = (chunkPadPos 4 (bytesToBits data)).map id := by
        apply List.map_congr_left
        intro c hc
        have hlen := chunkPadPos_length 4 (bytesToBits data) c hc
        simp only [Function.comp_apply, id_eq]
        rw [show (5 : Nat) = c.length from hlen.symm, natToBits_bitsToNat]
    _ = chunkPadPos 4 (bytesToBits data) := List.map_id _

/-- The padding arithmetic of the channel encode/decode pair: for a payload
of `n` bytes the stripped encoding has `⌈8n/5⌉` characters, and re-padding
to the next multiple of 8 uses one of the five legal padding lengths. -/
theorem b32_pad_arith (n : Nat) :
    ((8 * n + 4) / 5 + (8 - (8 * n + 4) / 5 % 8) % 8) % 8 = 0 ∧
    ((8 - (8 * n + 4) / 5 % 8) % 8 = 0 ∨ (8 - (8 * n + 4) / 5 % 8) % 8 = 1 ∨
     (8 - (8 * n + 4) / 5 % 8) % 8 = 3 ∨ (8 - (8 * n + 4) / 5 % 8) % 8 = 4 ∨
     (8 - (8 * n + 4) / 5 % 8) % 8 = 6) := by
  omega

/-- `b32decode` on a legal-pad input made of alphabet characters. -/
theorem b32decode_clean (t : List Char) (p : Nat) (vs : List Nat)
    (hlen : (t.length + p) % 8 = 0)
    (hp : p = 0 ∨ p = 1 ∨ p = 3 ∨ p = 4 ∨ p = 6)
    (ht : ∀ c ∈ t, (c == '=') = false)
    (hm : t.mapM b32Val = some vs) :
    b32decode (t ++ List.replicate p '=') =
      some (bitsToBytes ((vs.map (natToBits 5)).flatten)) := by
  unfold b32decode
  rw [if_neg (by
    simp only [List.length_append, List.length_replicate, ne_eq, Decidable.not_not]
    exact hlen)]
  have hT : ((t ++ List.replicate p '=').reverse.dropWhile
      (fun c => c == '=')).reverse = t :=
    rstrip_eq_append t _ p '=' (by decide) ht
  simp only [hT, List.length_append, List.length_replicate,
    Nat.add_sub_cancel_left]
  rw [if_neg (not_not_intro hp), hm]

/-- `Base32Channel.decode ∘ Base32Channel.encode = id` on byte lists. -/
theorem base32Decode_encode (data : List Nat) (hd : ∀ b ∈ data, b < 256) :
    base32Decode (base32Encode data) = some data := by
  have hbits : (bytesToBits data).length = 8 * data.length :=
    bytesToBits_length data hd
  have hvals : ∀ v ∈ chunkValsPos 4 data, v < 32 := by
    intro v hv
    have h := chunkValsPos_lt 4 data v hv
    norm_num at h
    exact h
  have hu : (((chunkValsPos 4 data).map b32Char).map Char.toLower).map
      Char.toUpper = (chunkValsPos 4 data).map b32Char := by
    rw [List.map_map, List.map_map]
    apply List.map_congr_left
    intro v hv
    have := (b32Char_facts ⟨v, hvals v hv⟩).1
    simpa using this
  have hlenvals : (chunkValsPos 4 data).length = (8 * data.length + 4) / 5 := by
    unfold chunkValsPos chunkPadPos
    rw [List.length_map, List.length_map, chunksPos_length, hbits]
  have harith := b32_pad_arith data.length
  unfold base32Encode base32Decode b32encodeStripped
  simp only [hu]
  rw [List.length_map, hlenvals]
  rw [b32decode_clean ((chunkValsPos 4 data).map b32Char)
    ((8 - (8 * data.length + 4) / 5 % 8) % 8) (chunkValsPos 4 data)
    (by rw [List.length_map, hlenvals]; exact harith.1)
    harith.2
    (by
      intro c hc
      simp only [List.mem_map] at hc
      obtain ⟨v, hv, rfl⟩ := hc
      exact (b32Char_facts ⟨v, hvals v hv⟩).2.2)
    (mapM_map_some _ (fun v hv => (b32Char_facts ⟨v, hvals v hv⟩).2.1))]
  rw [natToBits5_chunkVals]
  obtain ⟨q, hq, hqk⟩ := chunkPadPos_flatten 4 (bytesToBits data)
  rw [hq, bitsToBytes_bytesToBits data _ hd (by simp; omega)]

/-- `XORBase32Channel` round trip: XOR twice with the cyclic key is the
identity, and the base32 layer round-trips. -/
theorem xorB32Decode_encode (key data : List Nat) (hk : ∀ k ∈ key, k < 256)
    (hd : ∀ b ∈ data, b < 256) :
    xorB32Decode key (xorB32Encode key data) = some data := by
  unfold xorB32Encode xorB32Decode
  rw [base32Decode_encode (xorCipher key data) (xorCipher_bounds key data hk hd)]
  simp [xorCipher_invol]

/-! ### TXID round-trip characterization -/

theorem flatMap_map (f : α → β) (g : β → List γ) (l : List α) :
    (l.map f).flatMap g = l.flatMap (fun x => g (f x)) := by
  induction l with
  | nil => rfl
  | cons x xs ih => simp [List.flatMap_cons, ih]

theorem txidDecode_encode_false (data : List Nat) (hd : ∀ b ∈ data, b < 256) :
    txidDecode (txidEncode false data) =
      some (if data.length % 2 = 0 then data else data ++ [0]) := by
  rw [txidDecode_txidEncode]
  congr 1
  rw [show txidValues false data =
      (txidPairs data).map (fun p => 256 * p.1 + p.2) from by
    simp [txidValues]]
  rw [flatMap_map, ← txidPairs_flatten data]
  apply flatMap_congr_mem
  intro p hp
  obtain ⟨h1, h2⟩ := txidPairs_bounds data hd p hp
  simp only [and_ffff_eq]
  have e1 : (256 * p.1 + p.2) % 65536 / 256 = p.1 := by omega
  have e2 : (256 * p.1 + p.2) % 65536 % 256 = p.2 := by omega
  rw [e1, e2]

theorem txidDecode_encode_true (data : List Nat) (hd : ∀ b ∈ data, b < 256) :
    txidDecode (txidEncode true data) =
      some ((txidPairs data).flatMap (fun p => [p.1 % 128, p.2])) := by
  rw [txidDecode_txidEncode]
  congr 1
  rw [show txidValues true data =
      (txidPairs data).map (fun p => (256 * p.1 + p.2) &&& 0x7FFF) from by
    simp [txidValues]]
  rw [flatMap_map]
  apply flatMap_congr_mem
  intro p hp
  obtain ⟨h1, h2⟩ := txidPairs_bounds data hd p hp
  simp only [and_ffff_eq, and_7fff_eq]
  have e0 : (256 * p.1 + p.2) % 32768 % 65536 = 256 * (p.1 % 128) + p.2 := by
    omega
  rw [e0]
  have e1 : (256 * (p.1 % 128) + p.2) / 256 = p.1 % 128 := by omega
  have e2 : (256 * (p.1 % 128) + p.2) % 256 = p.2 := by omega
  rw [e1, e2]

theorem txid_mask_ne_iff : (data : List Nat) → (∀ b ∈ data, b < 256) →
    data.length % 2 = 0 →
    ((txidPairs data).flatMap (fun p => [p.1 % 128, p.2]) ≠ data ↔
      ∃ v ∈ txidValues false data, v.testBit 15 = true)
  | [], _, _ => by simp [txidPairs, txidValues]
  | [b], _, h => by simp at h
  | b0 :: b1 :: rest, hd, h => by
    have hb0 := hd b0 (by simp)
    have hb1 := hd b1 (by simp)
    have ih := txid_mask_ne_iff rest (fun x hx => hd x (by simp [hx]))
      (by simp only [List.length_cons] at h ⊢; omega)
    have htb : (256 * b0 + b1).testBit 15 = true ↔ 128 ≤ b0 := by
      have h15 : (2 : Nat) ^ 15 = 32768 := by norm_num
      rw [Nat.testBit_to_div_mod, h15, decide_eq_true_eq]
      omega
    rw [show (txidPairs (b0 :: b1 :: rest)).flatMap (fun p => [p.1 % 128, p.2]) =
        b0 % 128 :: b1 :: (txidPairs rest).flatMap (fun p => [p.1 % 128, p.2])
        from by simp [txidPairs, List.flatMap_cons]]
    rw [show txidValues false (b0 :: b1 :: rest) =
        (256 * b0 + b1) :: txidValues false rest from by
      simp [txidValues, txidPairs]]
    by_cases hb : 128 ≤ b0
    · have hne : b0 % 128 ≠ b0 := by omega
      constructor
      · intro _
        exact ⟨256 * b0 + b1, List.mem_cons_self _ _, htb.mpr hb⟩
      · intro _ heq
        injection heq with h1 _
        exact hne h1
    · have hmod : b0 % 128 = b0 := by omega
      rw [hmod]
      have hiff : (b0 :: b1 ::
            (txidPairs rest).flatMap (fun p => [p.1 % 128, p.2]) ≠
            b0 :: b1 :: rest) ↔
          ((txidPairs rest).flatMap (fun p => [p.1 % 128, p.2]) ≠ rest) := by
        constructor
        · intro hne he
          exact hne (by rw [he])
        · intro hne he
          injection he with _ he₂
          injection he₂ with _ he₃
          exact hne he₃
      rw [hiff, ih]
      constructor
      · rintro ⟨v, hv, hbit⟩
        exact ⟨v, List.mem_cons_of_mem _ hv, hbit⟩
      · rintro ⟨v, hv, hbit⟩
        rcases List.mem_cons.mp hv with rfl | hv
        · exact absurd (htb.mp hbit) (by omega)
        · exact ⟨v, hv, hbit⟩

/-! ### Empty-payload behaviour -/

theorem getTtlValues_nil (off : Int) (mS mE : Option Nat) :
    getTtlValues ⟨off, mS, mE⟩ [] =
      if mS = none ∧ mE = none then none
      else some (mS.toList ++ mE.toList) := by
  cases mS with
  | none =>
    cases mE with
    | none => rfl
    | some m =>
      rw [if_neg (by simp)]
      show parseTokens (stripTag "TTL:".toList
        ("TTL:".toList ++ joinComma ([m].map natDigits))) = _
      rw [stripTag_append, parseTokens_join [m] (by simp)]
      rfl
  | some m =>
    cases mE with
    | none =>
      rw [if_neg (by simp)]
      show parseTokens (stripTag "TTL:".toList
        ("TTL:".toList ++ joinComma ([m].map natDigits))) = _
      rw [stripTag_append, parseTokens_join [m] (by simp)]
      rfl
    | some m₂ =>
      rw [if_neg (by simp)]
      show parseTokens (stripTag "TTL:".toList
        ("TTL:".toList ++ joinComma ([m, m₂].map natDigits))) = _
      rw [stripTag_append, parseTokens_join [m, m₂] (by simp)]
      rfl

theorem getTtlDnsValues_nil (off : Int) (mS mE : Option Nat) :
    getTtlDnsValues ⟨off, mS, mE⟩ [] = some (mS.toList ++ mE.toList) := by
  cases mS with
  | none =>
    cases mE with
    | none => rfl
    | some m =>
      show parseTokensFiltered (stripTag "DNS-TTL:".toList
        ("DNS-TTL:".toList ++ joinComma ([m].map natDigits))) = _
      rw [stripTag_append, parseTokensFiltered_join [m]]
      rfl
  | some m =>
    cases mE with
    | none =>
      show parseTokensFiltered (stripTag "DNS-TTL:".toList
        ("DNS-TTL:".toList ++ joinComma ([m].map natDigits))) = _
      rw [stripTag_append, parseTokensFiltered_join [m]]
      rfl
    | some m₂ =>
      show parseTokensFiltered (stripTag "DNS-TTL:".toList
        ("DNS-TTL:".toList ++ joinComma ([m, m₂].map natDigits))) = _
      rw [stripTag_append, parseTokensFiltered_join [m, m₂]]
      rfl

theorem getLabelCounts_nil (cfg : LabelCfg) :
    getLabelCounts cfg [] = if labelBits cfg = 0 then none else some [] := by
  by_cases h : labelBits cfg = 0
  · simp [getLabelCounts, labelEncode, labelCounts, h]
  · rw [if_neg h]
    unfold getLabelCounts labelEncode labelCounts
    rw [if_neg h]
    show parseTokensFiltered (stripTag "LABELCOUNT:".toList
      ("LABELCOUNT:".toList ++ joinComma (([] : List Nat).map natDigits))) = _
    rw [stripTag_append, parseTokensFiltered_join []]

theorem qtypeSequence_nil (types : List String) :
    qtypeSequence types [] =
      if types.length = 0 ∨ log2Floor types.length = 0 then none
      else some [] := by
  unfold qtypeSequence
  split
  · rfl
  · rfl

theorem caseToggleEncode_nil (baseLabel : List Char) :
    caseToggleEncode baseLabel [] = if baseLabel = [] then none else some [] := by
  unfold caseToggleEncode
  split
  · rfl
  · rfl

/-! ## Claims -/

/-- C1: for every payload (any length, the empty payload included),
`decode(encode(P)) == P` holds for the Base32 channel, the Hex channel, the
XOR+Base32 channel with any configured key, and the RD-flag channel (either
`invert` setting). -/
theorem claim_C1 (data key : List Nat) (invert : Bool)
    (hd : ∀ b ∈ data, b < 256) (hk : ∀ k ∈ key, k < 256) :
    base32Decode (base32Encode data) = some data ∧
    hexDecode (hexEncode data) = some data ∧
    xorB32Decode key (xorB32Encode key data) = some data ∧
    rdDecode invert (rdEncode invert data) = some data :=
  ⟨base32Decode_encode data hd, hexDecode_hexEncode data hd,
    xorB32Decode_encode key data hk hd, rdDecode_rdEncode invert data hd⟩

/-- C1 witness at `b"Hi"`, key `[83, 101]`, `invert = true`. -/
theorem claim_C1_witness :
    (∀ b ∈ [72, 105], b < 256) ∧ (∀ k ∈ [83, 101], k < 256) ∧
    (base32Decode (base32Encode [72, 105]) = some [72, 105] ∧
     hexDecode (hexEncode [72, 105]) = some [72, 105] ∧
     xorB32Decode [83, 101] (xorB32Encode [83, 101] [72, 105]) = some [72, 105] ∧
     rdDecode true (rdEncode true [72, 105]) = some [72, 105]) :=
  ⟨by decide, by decide, claim_C1 [72, 105] [83, 101] true (by decide) (by decide)⟩

/-- C2: with any offset and no markers, `TTLChannel.encode` renders
`(b + offset) % 256` per byte with a zero result remapped to 1, while
`decode` maps every received value through `(v - offset) % 256` only; hence
the byte `b₀` whose mapped value is remapped from 0 and the byte `b₁` that
maps to 1 decode to the same byte `b₁`.  The default-configuration examples
`encode(b"Hi") = "TTL:72,105"` and `decode("TTL:72,105") = b"Hi"` hold. -/
theorem claim_C2 (off : Int) (data vals : List Nat) (b₀ b₁ : Nat)
    (hvals : vals ≠ []) (hb : b₀ < 256 ∧ b₁ < 256)
    (h₀ : ((b₀ : Int) + off) % 256 = 0) (h₁ : ((b₁ : Int) + off) % 256 = 1) :
    ttlEncode ⟨off, none, none⟩ data =
      "TTL:".toList ++ joinComma ((data.map (fun (b : Nat) =>
        (if ((b : Int) + off) % 256 = 0 then 1
         else ((b : Int) + off) % 256).toNat)).map natDigits) ∧
    ttlDecode ⟨off, none, none⟩
        ("TTL:".toList ++ joinComma (vals.map natDigits)) =
      some (vals.map (fun (v : Nat) => (((v : Int) - off) % 256).toNat)) ∧
    b₀ ≠ b₁ ∧
    ttlDecode ⟨off, none, none⟩ (ttlEncode ⟨off, none, none⟩ [b₀]) = some [b₁] ∧
    ttlDecode ⟨off, none, none⟩ (ttlEncode ⟨off, none, none⟩ [b₁]) = some [b₁] ∧
    ttlEncode ⟨0, none, none⟩ [72, 105] = "TTL:72,105".toList ∧
    ttlDecode ⟨0, none, none⟩ ("TTL:72,105".toList) = some [72, 105] := by
  have hmap₀ : ttlMapByte off b₀ = 1 := by simp [ttlMapByte, h₀]
  have hmap₁ : ttlMapByte off b₁ = 1 := by simp [ttlMapByte, h₁]
  obtain ⟨hb₀, hb₁⟩ := hb
  have hdec : ttlUnmap off 1 = b₁ := by
    simp only [ttlUnmap]
    omega
  refine ⟨?_, ttlDecode_join_noMarkers off vals hvals, by omega, ?_, ?_,
    by decide, by decide⟩
  · simp only [ttlEncode, ttlEncValues, Option.toList, List.nil_append,
      List.append_nil]
    rfl
  · rw [show ttlEncode ⟨off, none, none⟩ [b₀] =
        "TTL:".toList ++ joinComma (([ttlMapByte off b₀]).map natDigits) from by
      simp only [ttlEncode, ttlEncValues, Option.toList, List.nil_append,
        List.append_nil, List.map_cons, List.map_nil]]
    rw [hmap₀, ttlDecode_join_noMarkers off [1] (by simp)]
    simp only [List.map_cons, List.map_nil, hdec]
  · rw [show ttlEncode ⟨off, none, none⟩ [b₁] =
        "TTL:".toList ++ joinComma (([ttlMapByte off b₁]).map natDigits) from by
      simp only [ttlEncode, ttlEncValues, Option.toList, List.nil_append,
        List.append_nil, List.map_cons, List.map_nil]]
    rw [hmap₁, ttlDecode_join_noMarkers off [1] (by simp)]
    simp only [List.map_cons, List.map_nil, hdec]

/-- C2 witness at offset 0, payload `b"Hi"`, values `[72, 105]`, and the
colliding bytes 0 and 1. -/
theorem claim_C2_witness :
    (([72, 105] : List Nat) ≠ [] ∧ ((0 : Nat) < 256 ∧ (1 : Nat) < 256) ∧
     (((0 : Nat) : Int) + 0) % 256 = 0 ∧ (((1 : Nat) : Int) + 0) % 256 = 1) ∧
    (ttlEncode ⟨0, none, none⟩ [72, 105] =
      "TTL:".toList ++ joinComma ((([72, 105] : List Nat).map (fun (b : Nat) =>
        (if ((b : Int) + 0) % 256 = 0 then 1
         else ((b : Int) + 0) % 256).toNat)).map natDigits) ∧
    ttlDecode ⟨0, none, none⟩
        ("TTL:".toList ++ joinComma (([72, 105] : List Nat).map natDigits)) =
      some (([72, 105] : List Nat).map (fun (v : Nat) => (((v : Int) - 0) % 256).toNat)) ∧
    (0 : Nat) ≠ 1 ∧
    ttlDecode ⟨0, none, none⟩ (ttlEncode ⟨0, none, none⟩ [0]) = some [1] ∧
    ttlDecode ⟨0, none, none⟩ (ttlEncode ⟨0, none, none⟩ [1]) = some [1] ∧
    ttlEncode ⟨0, none, none⟩ [72, 105] = "TTL:72,105".toList ∧
    ttlDecode ⟨0, none, none⟩ ("TTL:72,105".toList) = some [72, 105]) :=
  ⟨⟨by decide, by decide, by decide, by decide⟩,
    claim_C2 0 [72, 105] [72, 105] 0 1 (by decide) (by decide)
      (by decide) (by decide)⟩

/-- C3 counterexample: with `preserve_high_bit=False` the odd-length payload
`b"A"` does not round-trip — the zero padding byte survives decode:
`decode(encode(b"A")) = b"A\x00" ≠ b"A"`. -/
theorem claim_C3_counterexample :
    txidDecode (txidEncode false [65]) = some [65, 0] ∧
    some [65, 0] ≠ some ([65] : List Nat) :=
  ⟨by decide, by decide⟩

/-- C3 amended: with `preserve_high_bit=False`, `decode(encode(P)) = P` for
every even-length payload; an odd-length payload comes back with one
trailing zero byte appended (the claim's "including payloads of odd byte
length" fails). -/
theorem claim_C3 (data : List Nat) (hd : ∀ b ∈ data, b < 256) :
    txidDecode (txidEncode false data) =
      some (if data.length % 2 = 0 then data else data ++ [0]) :=
  txidDecode_encode_false data hd

/-- C3 witness at the even-length payload `b"Hi"`. -/
theorem claim_C3_witness :
    (∀ b ∈ [72, 105], b < 256) ∧
    txidDecode (txidEncode false [72, 105]) =
      some (if ([72, 105] : List Nat).length % 2 = 0 then [72, 105]
        else [72, 105] ++ [0]) :=
  ⟨by decide, claim_C3 [72, 105] (by decide)⟩

/-- C4 counterexample: with `preserve_high_bit=True` and payload `b"\x00"`
no 16-bit chunk has bit 15 set, yet `decode(encode(P)) = b"\x00\x00" ≠ P`
because of the odd-length zero padding — so "`decode(encode(P)) != P`
exactly when some chunk has its most-significant bit set" fails as stated. -/
theorem claim_C4_counterexample :
    txidDecode (txidEncode true [0]) = some [0, 0] ∧
    some [0, 0] ≠ some ([0] : List Nat) ∧
    (∀ v ∈ txidValues false [0], v.testBit 15 = false) :=
  ⟨by decide, by decide, by decide⟩

/-- C4 amended: encode masks every 16-bit value with 0x7FFF; the cleared
bit is never recovered (decode returns each 2-byte chunk with its high
byte reduced modulo 128); and for *even-length* payloads
`decode(encode(P)) ≠ P` holds exactly when some 16-bit chunk has its
most-significant bit set. -/
theorem claim_C4 (data : List Nat) (hd : ∀ b ∈ data, b < 256)
    (heven : data.length % 2 = 0) :
    txidValues true data =
      (txidValues false data).map (fun v => v &&& 0x7FFF) ∧
    txidDecode (txidEncode true data) =
      some ((txidPairs data).flatMap (fun p => [p.1 % 128, p.2])) ∧
    (txidDecode (txidEncode true data) ≠ some data ↔
      ∃ v ∈ txidValues false data, v.testBit 15 = true) := by
  refine ⟨by simp [txidValues, List.map_map], txidDecode_encode_true data hd, ?_⟩
  rw [txidDecode_encode_true data hd]
  rw [show (some ((txidPairs data).flatMap fun p => [p.1 % 128, p.2]) ≠
      some data) ↔
      ((txidPairs data).flatMap (fun p => [p.1 % 128, p.2]) ≠ data) from by
    simp]
  exact txid_mask_ne_iff data hd heven

/-- C4 witness at the even-length payload `[200, 5, 1, 2]`, whose first
chunk has bit 15 set. -/
theorem claim_C4_witness :
    ((∀ b ∈ [200, 5, 1, 2], b < 256) ∧ ([200, 5, 1, 2] : List Nat).length % 2 = 0) ∧
    (txidValues true [200, 5, 1, 2] =
      (txidValues false [200, 5, 1, 2]).map (fun v => v &&& 0x7FFF) ∧
    txidDecode (txidEncode true [200, 5, 1, 2]) =
      some ((txidPairs [200, 5, 1, 2]).flatMap (fun p => [p.1 % 128, p.2])) ∧
    (txidDecode (txidEncode true [200, 5, 1, 2]) ≠ some [200, 5, 1, 2] ↔
      ∃ v ∈ txidValues false [200, 5, 1, 2], v.testBit 15 = true)) :=
  ⟨⟨by decide, by decide⟩, claim_C4 [200, 5, 1, 2] (by decide) (by decide)⟩

/-- C5: with any offset and no markers, `TTLDNSChannel.encode` renders
`(b + offset) % 65536` per byte with a zero result remapped to 1, while
`decode` maps every received value through `(v - offset) % 256` — modulo
256, not 65536. -/
theorem claim_C5 (off : Int) (data vals : List Nat) :
    ttlDnsEncode ⟨off, none, none⟩ data =
      "DNS-TTL:".toList ++ joinComma ((data.map (fun (b : Nat) =>
        (if ((b : Int) + off) % 65536 = 0 then 1
         else ((b : Int) + off) % 65536).toNat)).map natDigits) ∧
    ttlDnsDecode ⟨off, none, none⟩
        ("DNS-TTL:".toList ++ joinComma (vals.map natDigits)) =
      some (vals.map (fun (v : Nat) => (((v : Int) - off) % 256).toNat)) := by
  constructor
  · simp only [ttlDnsEncode, ttlDnsEncValues, Option.toList, List.nil_append,
      List.append_nil]
    rfl
  · exact ttlDnsDecode_join_noMarkers off vals

/-- C6: with `marker_start=255`, `marker_end=1` the values accessor on
`b"Hi"` yields `[255, 72, 105, 1]`; decode parses the comma list and strips
markers by exact value equality at only the first and the last position
(`stripStartM`/`stripEndM`); consequently decoding a value string whose
first value is the *data* value 255 — as produced for payload byte 255 by
the per-byte map, e.g. when the start sentinel was consumed or absent —
incorrectly strips that data value: `decode("TTL:255,72") = b"H"`. -/
theorem claim_C6 (off : Int) (mS mE : Nat) (vals : List Nat) (h : vals ≠ []) :
    getTtlValues ⟨0, some 255, some 1⟩ [72, 105] = some [255, 72, 105, 1] ∧
    ttlDecode ⟨off, some mS, some mE⟩
        ("TTL:".toList ++ joinComma (vals.map natDigits)) =
      Option.map (List.map (ttlUnmap off))
        (stripEndM (some mE) (stripStartM (some mS) vals)) ∧
    ttlMapByte 0 255 = 255 ∧
    ttlDecode ⟨0, some 255, some 1⟩ ("TTL:255,72".toList) = some [72] :=
  ⟨by decide, ttlDecode_join ⟨off, some mS, some mE⟩ vals h, by decide, by decide⟩

/-- C6 witness at offset 0, markers 255/1, value list `[255, 72]`. -/
theorem claim_C6_witness :
    (([255, 72] : List Nat) ≠ []) ∧
    (getTtlValues ⟨0, some 255, some 1⟩ [72, 105] = some [255, 72, 105, 1] ∧
    ttlDecode ⟨0, some 255, some 1⟩
        ("TTL:".toList ++ joinComma (([255, 72] : List Nat).map natDigits)) =
      Option.map (List.map (ttlUnmap 0))
        (stripEndM (some 1) (stripStartM (some 255) [255, 72])) ∧
    ttlMapByte 0 255 = 255 ∧
    ttlDecode ⟨0, some 255, some 1⟩ ("TTL:255,72".toList) = some [72]) :=
  ⟨by decide, claim_C6 0 255 1 [255, 72] (by decide)⟩

/-- C7: the `min_labels=1`, `max_labels=8` label channel has 3 bits per
query; `encode(b"\x00")` yields a label count of 1 for its first (and
every) chunk; and decode clamps each received count `c` to
`max 0 (min (c - 1) 7)` before re-rendering the bits and reassembling
full bytes. -/
theorem claim_C7 (counts : List Nat) :
    labelBits ⟨1, 8⟩ = 3 ∧
    labelCounts ⟨1, 8⟩ [0] = some [1, 1, 1] ∧
    labelDecode ⟨1, 8⟩
        ("LABELCOUNT:".toList ++ joinComma (counts.map natDigits)) =
      some (bitsToBytes (counts.flatMap
        (fun c => formatBin 3 ((max 0 (min ((c : Int) - 1) 7)).toNat)))) := by
  refine ⟨by decide, by decide, ?_⟩
  have h := labelDecode_join ⟨1, 8⟩ counts
  have h1 : labelBits ⟨1, 8⟩ = 3 := by decide
  have h2 : labelNumValues ⟨1, 8⟩ = 8 := by decide
  simpa [labelClamp, h1, h2] using h

/-- C8 counterexample: `TTLChannel.get_ttl_values(b"")` raises with no
markers configured (the comma-split of the empty remainder yields one empty
token, which `int` rejects), and the single-entry QType configuration
raises even for the empty payload (`range` step 0) — so "every channel and
every configuration accepts `b\"\"` and yields an empty value sequence"
fails. -/
theorem claim_C8_counterexample :
    getTtlValues ⟨0, none, none⟩ [] = none ∧
    qtypeSequence ["A"] [] = none :=
  ⟨by decide, by decide⟩

/-- C8 amended: the empty payload is accepted, with a value sequence free
of data values, by every channel and configuration whose derived bit width
is positive, with the code's two exceptions: (i) `TTLChannel.get_ttl_values`
raises on `b""` when no markers are configured, and returns exactly the
configured markers otherwise (the TTL-seconds accessor likewise returns its
markers); (ii) a zero bit width — single-entry QType list, label range with
`max = min`, empty case-toggle base label — raises for every payload,
the empty one included. -/
theorem claim_C8 (off : Int) (mS mE : Option Nat) (invert preserveHighBit : Bool)
    (key : List Nat) (lcfg : LabelCfg) (types : List String)
    (baseLabel : List Char) :
    base32Encode [] = [] ∧ hexEncode [] = [] ∧ xorB32Encode key [] = [] ∧
    rdEncode invert [] = "RD:".toList ∧ getRdFlags invert [] = [] ∧
    txidEncode preserveHighBit [] = "TXID:".toList ∧
    getTxidValues preserveHighBit [] = some [] ∧
    getTtlValues ⟨off, mS, mE⟩ [] =
      (if mS = none ∧ mE = none then none else some (mS.toList ++ mE.toList)) ∧
    getTtlDnsValues ⟨off, mS, mE⟩ [] = some (mS.toList ++ mE.toList) ∧
    getLabelCounts lcfg [] = (if labelBits lcfg = 0 then none else some []) ∧
    qtypeSequence types [] =
      (if types.length = 0 ∨ log2Floor types.length = 0 then none
       else some []) ∧
    caseToggleEncode baseLabel [] =
      (if baseLabel = [] then none else some []) := by
  have hb32 : base32Encode [] = [] := by
    simp [base32Encode, b32encodeStripped, chunkValsPos, chunkPadPos,
      bytesToBits, chunksPos]
  refine ⟨hb32, rfl, ?_, ?_, ?_, ?_, ?_, getTtlValues_nil off mS mE,
    getTtlDnsValues_nil off mS mE, getLabelCounts_nil lcfg,
    qtypeSequence_nil types, caseToggleEncode_nil baseLabel⟩
  · unfold xorB32Encode
    rw [show xorCipher key [] = [] from by unfold xorCipher; split <;> rfl]
    exact hb32
  · cases invert <;> rfl
  · cases invert <;> rfl
  · cases preserveHighBit <;> rfl
  · cases preserveHighBit <;> rfl

/-- C9: whenever the QType sequence accessor returns (the type list is
nonempty and the chunk width positive), every chunk integer is strictly
below the type-list length — the width `⌊log2 N⌋` guarantees it — so the
out-of-range fallback to `types[0]` is unreachable and every emitted type
is the one indexed by its chunk value. -/
theorem claim_C9 (types : List String) (data : List Nat) (out : List String)
    (h : qtypeSequence types data = some out) :
    (∀ v ∈ qtypeChunkVals types data, v < types.length) ∧
    out = (qtypeChunkVals types data).map (fun v => types.getD v "") := by
  by_cases hc : types.length = 0 ∨ log2Floor types.length = 0
  · rw [qtypeSequence, if_pos hc] at h
    exact absurd h (by simp)
  · rw [qtypeSequence, if_neg hc] at h
    push_neg at hc
    obtain ⟨hN, hw⟩ := hc
    have hbound : ∀ v ∈ qtypeChunkVals types data, v < types.length := by
      intro v hv
      have h2 := chunkValsPos_lt (log2Floor types.length - 1) data v hv
      have h3 : log2Floor types.length - 1 + 1 = log2Floor types.length := by
        omega
      rw [h3, log2Floor_eq] at h2
      calc v < 2 ^ Nat.log2 types.length := h2
        _ ≤ types.length := Nat.log2_self_le hN
    refine ⟨hbound, ?_⟩
    have hout := Option.some.inj h
    rw [← hout]
    apply List.map_congr_left
    intro v hv
    rw [if_pos (hbound v hv)]

/-- C9 witness at the default 16-entry type list and payload `b"H"`
(chunks `0100`, `1000` select CNAME and SRV). -/
theorem claim_C9_witness :
    qtypeSequence qtypeDefaultTypes [72] = some ["CNAME", "SRV"] ∧
    ((∀ v ∈ qtypeChunkVals qtypeDefaultTypes [72],
        v < qtypeDefaultTypes.length) ∧
      ["CNAME", "SRV"] = (qtypeChunkVals qtypeDefaultTypes [72]).map
        (fun v => qtypeDefaultTypes.getD v "")) :=
  ⟨by decide, claim_C9 qtypeDefaultTypes [72] ["CNAME", "SRV"] (by decide)⟩

/-- C10: with no markers (any offset), `TTLChannel.encode(b"")` is exactly
`"TTL:"`, and decoding that string raises — the comma-split of the empty
remainder yields one empty token and `int('')` fails — so
`decode(encode(P)) == P` fails for the empty payload on this channel. -/
theorem claim_C10 (off : Int) :
    ttlEncode ⟨off, none, none⟩ [] = "TTL:".toList ∧
    ttlDecode ⟨off, none, none⟩ ("TTL:".toList) = none :=
  ⟨rfl, rfl⟩

end CovertDNS
